import Mathlib

/-!
Shallow embedding of the URL-shortener core
(`src/url_shortener/src/url_shortener.rs`).

The Rust code talks to a SQLite store through `sqlx`.  We model the
durable state as a list of `(short_code, original_url)` rows (in rowid
order, i.e. insertion order) plus the optional value of the settings row
with key `short_code_length`, stored — as in the database — as a string.

Nondeterminism (the thread-local RNG and possible store faults) is
modelled with an environment `Env` of oracle streams, consumed at
positions tracked in the `World` state: `rng` yields the next
alphanumeric character index, `insertErr`/`readErr`/`writeErr` tell
whether the n-th INSERT / settings SELECT / settings UPSERT suffers an
injected store fault (and which fault).  When no fault is injected the
store behaves like SQLite: an INSERT into `short_urls` succeeds exactly
when the candidate short code is absent, and raises a database error
with `is_unique_violation() = true` otherwise.

`register`'s outer `loop` has no bound in the source, so it is embedded
with explicit fuel counting outer rounds; a result of `none` means the
fuel ran out, and non-termination is the statement that every amount of
fuel runs out.
-/

namespace UrlShort

/-- Model of `sqlx::Error`: either a database-level error, carrying
whether `is_unique_violation()` holds, or any other store fault. -/
inductive SqlxError where
  | database (uniqueViolation : Bool)
  | other
deriving DecidableEq, Repr

/-- The crate's public error enum (`Error` in `url_shortener.rs`). -/
inductive Error where
  | NotFound
  | Internal (e : SqlxError)
deriving DecidableEq, Repr

/-- The constant `DEFAULT_SHORT_CODE_LENGTH: usize = 4`. -/
def DEFAULT_SHORT_CODE_LENGTH : Nat := 4

/-- The 62-symbol alphabet of `rand::distributions::Alphanumeric`,
in the crate's order: upper case, lower case, digits. -/
def ALPHANUMERIC : List Char :=
  ['A', 'B', 'C', 'D', 'E', 'F', 'G', 'H', 'I', 'J', 'K', 'L', 'M',
   'N', 'O', 'P', 'Q', 'R', 'S', 'T', 'U', 'V', 'W', 'X', 'Y', 'Z',
   'a', 'b', 'c', 'd', 'e', 'f', 'g', 'h', 'i', 'j', 'k', 'l', 'm',
   'n', 'o', 'p', 'q', 'r', 's', 't', 'u', 'v', 'w', 'x', 'y', 'z',
   '0', '1', '2', '3', '4', '5', '6', '7', '8', '9']

/-- Durable state: the `short_urls` table as `(short_code, original_url)`
rows in insertion order, and the value of the `settings` row keyed
`short_code_length` (absent when never written). -/
structure DbState where
  short_urls : List (String × String)
  setting : Option String
deriving DecidableEq, Repr

/-- Oracle streams for the nondeterministic parts: the RNG's character
indices, and injected store faults for the n-th INSERT attempt, the n-th
settings read and the n-th settings write (`none` = store behaves). -/
structure Env where
  rng : Nat → Fin 62
  insertErr : Nat → Option SqlxError
  readErr : Nat → Option SqlxError
  writeErr : Nat → Option SqlxError

/-- The evolving world: durable state plus how much of each oracle
stream has been consumed. -/
structure World where
  db : DbState
  rngPos : Nat
  insertPos : Nat
  readPos : Nat
  writePos : Nat
deriving DecidableEq, Repr

/-- Model of `generate_short_code`: sample `length` characters from the
alphanumeric distribution, starting at stream position `pos`. -/
def generate_short_code (rng : Nat → Fin 62) (pos length : Nat) : String :=
  String.mk ((List.range length).map fun i =>
    ALPHANUMERIC.get ⟨(rng (pos + i)).val, (rng (pos + i)).isLt⟩)

/-- Rust's `str::parse::<usize>` on the stored setting value: an
optional leading `+`, then one or more decimal digits, rejecting values
past `usize::MAX` (a leading `-` is not accepted for unsigned types). -/
def parseUsize (s : String) : Option Nat :=
  let ds := if s.data.head? = some '+' then s.data.tail else s.data
  if ds ≠ [] ∧ ds.all (·.isDigit) then
    if ds.foldl (fun a c => a * 10 + (c.toNat - '0'.toNat)) 0 < 2 ^ 64 then
      some (ds.foldl (fun a c => a * 10 + (c.toNat - '0'.toNat)) 0)
    else none
  else none

/-- Model of `UrlShortener::get_short_code_length`: SELECT the settings row for
`short_code_length`; on a store fault return `Internal`; on a present
row parse its value, falling back to the default on a parse error; on an
absent row return the default. -/
def get_short_code_length (env : Env) (w : World) : Except Error Nat × World :=
  match env.readErr w.readPos with
  | some e => (.error (.Internal e), { w with readPos := w.readPos + 1 })
  | none =>
    let w' := { w with readPos := w.readPos + 1 }
    match w.db.setting with
    | some s =>
      match parseUsize s with
      | some n => (.ok n, w')
      | none => (.ok DEFAULT_SHORT_CODE_LENGTH, w')
    | none => (.ok DEFAULT_SHORT_CODE_LENGTH, w')

/-- Model of `UrlShortener::save_short_code_length`: UPSERT the setting; the
query's result is bound to `_` and discarded, and the function returns
`Ok(())` unconditionally, so a store fault leaves the setting unchanged
but is not reported. -/
def save_short_code_length (env : Env) (length : Nat) (w : World) :
    Except Error Unit × World :=
  match env.writeErr w.writePos with
  | some _ => (.ok (), { w with writePos := w.writePos + 1 })
  | none =>
    (.ok (),
     { w with db := { w.db with setting := some (toString length) },
              writePos := w.writePos + 1 })

/-- The test `register` applies to an INSERT failure: retry only on
`sqlx::Error::Database(e)` with `e.is_unique_violation()`. -/
def isUniqueViolation : SqlxError → Bool
  | .database b => b
  | .other => false

/-- One iteration of `register`'s inner `for` body: generate a candidate
code of the given length, then attempt
`INSERT INTO short_urls (original_url, short_code) VALUES (?, ?)`.
Absent an injected fault, the INSERT succeeds exactly when the code is
not yet present (the `UNIQUE` constraint on `short_code`), appending the
row; otherwise it raises a unique-violation database error. -/
def oneAttempt (env : Env) (original_url : String) (length : Nat) (w : World) :
    Except SqlxError String × World :=
  let code := generate_short_code env.rng w.rngPos length
  let wg := { w with rngPos := w.rngPos + length }
  match env.insertErr wg.insertPos with
  | some e => (.error e, { wg with insertPos := wg.insertPos + 1 })
  | none =>
    if wg.db.short_urls.any (fun r => r.1 = code) then
      (.error (.database true), { wg with insertPos := wg.insertPos + 1 })
    else
      (.ok code,
       { wg with
           db := { wg.db with short_urls := wg.db.short_urls ++ [(code, original_url)] },
           insertPos := wg.insertPos + 1 })

/-- Model of `register`'s inner `for _ in 0..3` loop, with the attempt budget `n`
explicit: return the reserved code on INSERT success, continue on a
unique violation, abort with `Internal` on any other INSERT error;
`none` means all `n` attempts hit unique violations. -/
def registerAttempts (env : Env) (original_url : String) (length : Nat) :
    Nat → World → Option (Except Error String) × World
  | 0, w => (none, w)
  | n + 1, w =>
    match oneAttempt env original_url length w with
    | (.ok code, w') => (some (.ok code), w')
    | (.error e, w') =>
      if isUniqueViolation e then registerAttempts env original_url length n w'
      else (some (.error (.Internal e)), w')

/-- The world reached after `j` iterations of the inner loop's body
(used to speak about the j-th attempt of a round). -/
def afterConflicts (env : Env) (original_url : String) (length : Nat) :
    Nat → World → World
  | 0, w => w
  | j + 1, w => afterConflicts env original_url length j (oneAttempt env original_url length w).2

/-- Model of `UrlShortener::register`: the outer `loop` — read the current code
length (propagating its error with `?`), run up to 3 reservation
attempts at that length, and if all collide, persist `length + 1`
(propagating with `?`, though `save_short_code_length` never errors) and
restart.  The source loop is unbounded, so `fuel` counts outer rounds;
`none` means the fuel was exhausted. -/
def register (env : Env) (original_url : String) :
    Nat → World → Option (Except Error String) × World
  | 0, w => (none, w)
  | fuel + 1, w =>
    match get_short_code_length env w with
    | (.error e, w1) => (some (.error e), w1)
    | (.ok length, w1) =>
      match registerAttempts env original_url length 3 w1 with
      | (some r, w2) => (some r, w2)
      | (none, w2) =>
        match save_short_code_length env (length + 1) w2 with
        | (.error e, w3) => (some (.error e), w3)
        | (.ok _, w3) => register env original_url fuel w3

/-- Model of `UrlShortener::lookup`: a single SELECT on `short_urls` by
`short_code` (`fault` is the store's injected fault for this read, if
any): `Internal` on a store fault, the stored `original_url` when a row
matches, `NotFound` otherwise. -/
def lookup (fault : Option SqlxError) (db : DbState) (short_code : String) :
    Except Error String :=
  match fault with
  | some e => .error (.Internal e)
  | none =>
    match db.short_urls.find? (fun r => r.1 = short_code) with
    | some row => .ok row.2
    | none => .error .NotFound

/-! Concrete fixtures: environments and worlds used to exercise the
operations on explicit inputs. -/

/-- A benign store: no injected faults; the RNG always yields index 0
(the character `A`). -/
def envA : Env := ⟨fun _ => 0, fun _ => none, fun _ => none, fun _ => none⟩

/-- A benign store whose RNG yields index 0 for the first four samples
and index 1 (the character `B`) afterwards. -/
def envB : Env := ⟨fun n => if n < 4 then 0 else 1, fun _ => none, fun _ => none, fun _ => none⟩

/-- A store where every INSERT fails with a non-database fault. -/
def envC : Env := ⟨fun _ => 0, fun _ => some .other, fun _ => none, fun _ => none⟩

/-- A store where every settings write fails (RNG always index 0). -/
def envD : Env := ⟨fun _ => 0, fun _ => none, fun _ => none, fun _ => some .other⟩

/-- The empty database: no rows, no length setting. -/
def wEmpty : World := ⟨⟨[], none⟩, 0, 0, 0, 0⟩

/-- A database already holding the code `AAAA`, with no length setting. -/
def dbOne : DbState := ⟨[("AAAA", "x")], none⟩

/-- A world over `dbOne` with all oracle streams at position 0. -/
def wOne : World := ⟨dbOne, 0, 0, 0, 0⟩

/-! Decimal representation: `Nat.repr` (Rust's `to_string()`) parses
back with `String.toNat?` (Rust's `parse::<usize>()`), which
`get_short_code_length` relies on to read back a saved length. -/

theorem digitChar_isDigit {m : Nat} (h : m < 10) : (Nat.digitChar m).isDigit = true := by
  interval_cases m <;> decide

theorem digitChar_val {m : Nat} (h : m < 10) : (Nat.digitChar m).toNat - '0'.toNat = m := by
  interval_cases m <;> decide

theorem toDigitsCore_shift (fuel : Nat) :
    ∀ (n : Nat) (ds : List Char),
      Nat.toDigitsCore 10 fuel n ds = Nat.toDigitsCore 10 fuel n [] ++ ds := by
  induction fuel with
  | zero => intro n ds; simp [Nat.toDigitsCore]
  | succ fuel ih =>
    intro n ds
    simp only [Nat.toDigitsCore]
    by_cases h0 : n / 10 = 0
    · simp [h0]
    · simp only [h0, if_false]
      rw [ih (n / 10) (Nat.digitChar (n % 10) :: ds),
        ih (n / 10) [Nat.digitChar (n % 10)], List.append_assoc]
      rfl

theorem toDigitsCore_foldl (fuel : Nat) :
    ∀ n : Nat, n < 10 ^ fuel →
      (Nat.toDigitsCore 10 fuel n []).foldl (fun a c => a * 10 + (c.toNat - '0'.toNat)) 0 = n := by
  induction fuel with
  | zero => intro n h; interval_cases n; simp [Nat.toDigitsCore]
  | succ fuel ih =>
    intro n h
    simp only [Nat.toDigitsCore]
    by_cases h0 : n / 10 = 0
    · have hn : n < 10 := by omega
      rw [if_pos h0]
      simp only [List.foldl]
      rw [Nat.mod_eq_of_lt hn, digitChar_val hn]
      omega
    · rw [if_neg h0, toDigitsCore_shift, List.foldl_append]
      have hdiv : n / 10 < 10 ^ fuel := by
        rw [Nat.div_lt_iff_lt_mul (by norm_num)]
        calc n < 10 ^ (fuel + 1) := h
        _ = 10 ^ fuel * 10 := by ring
      rw [ih (n / 10) hdiv]
      simp only [List.foldl]
      rw [digitChar_val (Nat.mod_lt n (by norm_num))]
      omega

theorem toDigitsCore_isDigit (fuel : Nat) :
    ∀ (n : Nat) (ds : List Char), (∀ c ∈ ds, c.isDigit = true) →
      ∀ c ∈ Nat.toDigitsCore 10 fuel n ds, c.isDigit = true := by
  induction fuel with
  | zero => intro n ds hds; simpa [Nat.toDigitsCore] using hds
  | succ fuel ih =>
    intro n ds hds
    simp only [Nat.toDigitsCore]
    have hd : ∀ c ∈ Nat.digitChar (n % 10) :: ds, c.isDigit = true := by
      intro c hc
      rcases List.mem_cons.mp hc with h | h
      · rw [h]; exact digitChar_isDigit (Nat.mod_lt _ (by norm_num))
      · exact hds c h
    by_cases h0 : n / 10 = 0
    · rw [if_pos h0]; exact hd
    · rw [if_neg h0]
      exact ih (n / 10) _ hd

theorem toDigitsCore_ne_nil (fuel : Nat) :
    ∀ (n : Nat) (ds : List Char), ds ≠ [] → Nat.toDigitsCore 10 fuel n ds ≠ [] := by
  induction fuel with
  | zero => intro n ds hds; simpa [Nat.toDigitsCore] using hds
  | succ fuel ih =>
    intro n ds hds
    simp only [Nat.toDigitsCore]
    by_cases h0 : n / 10 = 0
    · simp [h0]
    · simp only [h0, if_false]
      exact ih (n / 10) _ (by simp)

theorem toDigits_ne_nil (n : Nat) : Nat.toDigits 10 n ≠ [] := by
  show Nat.toDigitsCore 10 (n + 1) n [] ≠ []
  simp only [Nat.toDigitsCore]
  by_cases h0 : n / 10 = 0
  · simp [h0]
  · simp only [h0, if_false]
    exact toDigitsCore_ne_nil n (n / 10) _ (by simp)

theorem repr_data (n : Nat) : (Nat.repr n).data = Nat.toDigits 10 n := rfl

theorem parseUsize_toString {n : Nat} (h : n < 2 ^ 64) :
    parseUsize (toString n) = some n := by
  have hlt : n < 10 ^ (n + 1) :=
    lt_of_lt_of_le (Nat.lt_pow_self (by norm_num) n)
      (Nat.pow_le_pow_right (by norm_num) (Nat.le_succ n))
  have hdig : ∀ c ∈ Nat.toDigits 10 n, c.isDigit = true :=
    toDigitsCore_isDigit (n + 1) n [] (by simp)
  have hne : Nat.toDigits 10 n ≠ [] := toDigits_ne_nil n
  have hfold : (Nat.toDigits 10 n).foldl (fun a c => a * 10 + (c.toNat - '0'.toNat)) 0 = n :=
    toDigitsCore_foldl (n + 1) n hlt
  have hhead : ¬((Nat.toDigits 10 n).head? = some '+') := by
    cases hds : Nat.toDigits 10 n with
    | nil => simp
    | cons d t =>
      have hd : d.isDigit = true := hdig d (by rw [hds]; exact List.mem_cons_self d t)
      simp only [List.head?, Option.some.injEq]
      intro hcon
      rw [hcon] at hd
      exact absurd hd (by decide)
  show parseUsize (Nat.repr n) = some n
  unfold parseUsize
  simp only [repr_data]
  rw [if_neg hhead, if_pos ⟨hne, List.all_eq_true.mpr hdig⟩, hfold, if_pos h]

/-! Structural lemmas about the embedded operations. -/

theorem oneAttempt_ok {env : Env} {u : String} {len : Nat} {w w' : World} {c : String}
    (h : oneAttempt env u len w = (.ok c, w')) :
    w'.db.short_urls = w.db.short_urls ++ [(c, u)] ∧
    (∀ r ∈ w.db.short_urls, r.1 ≠ c) ∧
    w'.db.setting = w.db.setting ∧
    c = generate_short_code env.rng w.rngPos len ∧
    w'.rngPos = w.rngPos + len ∧ w'.insertPos = w.insertPos + 1 ∧
    w'.readPos = w.readPos ∧ w'.writePos = w.writePos := by
  simp only [oneAttempt] at h
  split at h
  · exact absurd h (by simp)
  · split at h
    · exact absurd h (by simp)
    · next hmem =>
      simp only [Prod.mk.injEq, Except.ok.injEq] at h
      obtain ⟨hc, hw⟩ := h
      subst hc
      subst hw
      simp only [List.any_eq_true, decide_eq_true_eq, not_exists, not_and] at hmem
      exact ⟨rfl, fun r hr => hmem r hr, rfl, rfl, rfl, rfl, rfl, rfl⟩

theorem oneAttempt_error {env : Env} {u : String} {len : Nat} {w w' : World} {e : SqlxError}
    (h : oneAttempt env u len w = (.error e, w')) :
    w'.db = w.db ∧
    w'.rngPos = w.rngPos + len ∧ w'.insertPos = w.insertPos + 1 ∧
    w'.readPos = w.readPos ∧ w'.writePos = w.writePos := by
  simp only [oneAttempt] at h
  split at h
  · simp only [Prod.mk.injEq, Except.error.injEq] at h
    obtain ⟨he, hw⟩ := h
    subst hw
    exact ⟨rfl, rfl, rfl, rfl, rfl⟩
  · split at h
    · simp only [Prod.mk.injEq, Except.error.injEq] at h
      obtain ⟨he, hw⟩ := h
      subst hw
      exact ⟨rfl, rfl, rfl, rfl, rfl⟩
    · exact absurd h (by simp)

theorem oneAttempt_snd_rngPos (env : Env) (u : String) (len : Nat) (w : World) :
    (oneAttempt env u len w).2.rngPos = w.rngPos + len := by
  simp only [oneAttempt]
  split
  · rfl
  · split <;> rfl

theorem oneAttempt_snd_insertPos (env : Env) (u : String) (len : Nat) (w : World) :
    (oneAttempt env u len w).2.insertPos = w.insertPos + 1 := by
  simp only [oneAttempt]
  split
  · rfl
  · split <;> rfl

theorem get_short_code_length_snd (env : Env) (w : World) :
    (get_short_code_length env w).2 = { w with readPos := w.readPos + 1 } := by
  simp only [get_short_code_length]
  split
  · rfl
  · split
    · split <;> rfl
    · rfl

theorem get_short_code_length_internal {env : Env} {w : World} {err : Error}
    (h : (get_short_code_length env w).1 = .error err) : ∃ e, err = .Internal e := by
  simp only [get_short_code_length] at h
  split at h
  · next e he => exact ⟨e, by simpa using h.symm⟩
  · split at h
    · split at h <;> simp at h
    · simp at h

theorem save_fst (env : Env) (n : Nat) (w : World) :
    (save_short_code_length env n w).1 = .ok () := by
  simp only [save_short_code_length]
  split <;> rfl

theorem save_short_urls (env : Env) (n : Nat) (w : World) :
    (save_short_code_length env n w).2.db.short_urls = w.db.short_urls := by
  simp only [save_short_code_length]
  split <;> rfl

theorem registerAttempts_ok {env : Env} {u : String} {len : Nat} :
    ∀ {n : Nat} {w w' : World} {c : String},
      registerAttempts env u len n w = (some (.ok c), w') →
      w'.db.short_urls = w.db.short_urls ++ [(c, u)] ∧
      (∀ r ∈ w.db.short_urls, r.1 ≠ c) ∧
      w'.db.setting = w.db.setting := by
  intro n
  induction n with
  | zero => intro w w' c h; exact absurd h (by simp [registerAttempts])
  | succ n ih =>
    intro w w' c h
    rw [registerAttempts] at h
    cases ha : oneAttempt env u len w with
    | mk res wa =>
      rw [ha] at h
      cases res with
      | ok code =>
        simp only [Prod.mk.injEq, Option.some.injEq, Except.ok.injEq] at h
        obtain ⟨hc, hw⟩ := h
        subst hc
        subst hw
        obtain ⟨h1, h2, h3, _⟩ := oneAttempt_ok ha
        exact ⟨h1, h2, h3⟩
      | error e =>
        simp only at h
        by_cases huv : isUniqueViolation e
        · rw [if_pos huv] at h
          obtain ⟨h1, h2, h3⟩ := ih h
          obtain ⟨hdb, _⟩ := oneAttempt_error ha
          rw [hdb] at h1 h2 h3
          exact ⟨h1, h2, h3⟩
        · rw [if_neg huv] at h
          exact absurd h (by simp)

theorem registerAttempts_none {env : Env} {u : String} {len : Nat} :
    ∀ {n : Nat} {w w' : World},
      registerAttempts env u len n w = (none, w') → w'.db = w.db := by
  intro n
  induction n with
  | zero =>
    intro w w' h
    simp only [registerAttempts, Prod.mk.injEq] at h
    rw [← h.2]
  | succ n ih =>
    intro w w' h
    rw [registerAttempts] at h
    cases ha : oneAttempt env u len w with
    | mk res wa =>
      rw [ha] at h
      cases res with
      | ok code => exact absurd h (by simp)
      | error e =>
        simp only at h
        by_cases huv : isUniqueViolation e
        · rw [if_pos huv] at h
          rw [ih h, (oneAttempt_error ha).1]
        · rw [if_neg huv] at h
          exact absurd h (by simp)

theorem registerAttempts_internal {env : Env} {u : String} {len : Nat} :
    ∀ {n : Nat} {w w' : World} {err : Error},
      registerAttempts env u len n w = (some (.error err), w') →
      ∃ e, err = .Internal e ∧ isUniqueViolation e = false := by
  intro n
  induction n with
  | zero => intro w w' err h; exact absurd h (by simp [registerAttempts])
  | succ n ih =>
    intro w w' err h
    rw [registerAttempts] at h
    cases ha : oneAttempt env u len w with
    | mk res wa =>
      rw [ha] at h
      cases res with
      | ok code => exact absurd h (by simp)
      | error e =>
        simp only at h
        by_cases huv : isUniqueViolation e
        · rw [if_pos huv] at h
          exact ih h
        · rw [if_neg huv] at h
          simp only [Prod.mk.injEq, Option.some.injEq, Except.error.injEq] at h
          exact ⟨e, h.1.symm, by simpa using huv⟩

theorem registerAttempts_rngPos_le {env : Env} {u : String} {len : Nat} :
    ∀ (n : Nat) (w : World),
      (registerAttempts env u len n w).2.rngPos ≤ w.rngPos + n * len := by
  intro n
  induction n with
  | zero => intro w; simp [registerAttempts]
  | succ n ih =>
    intro w
    rw [registerAttempts]
    cases ha : oneAttempt env u len w with
    | mk res wa =>
      have hr : wa.rngPos = w.rngPos + len := by
        have := oneAttempt_snd_rngPos env u len w
        rwa [ha] at this
      cases res with
      | ok code =>
        simp only
        calc wa.rngPos = w.rngPos + len := hr
        _ ≤ w.rngPos + (n + 1) * len := by nlinarith
      | error e =>
        simp only
        by_cases huv : isUniqueViolation e
        · rw [if_pos huv]
          calc (registerAttempts env u len n wa).2.rngPos ≤ wa.rngPos + n * len := ih wa
          _ = w.rngPos + (n + 1) * len := by rw [hr]; ring
        · rw [if_neg huv]
          calc wa.rngPos = w.rngPos + len := hr
          _ ≤ w.rngPos + (n + 1) * len := by nlinarith

theorem afterConflicts_succ (env : Env) (u : String) (len j : Nat) (w : World) :
    afterConflicts env u len (j + 1) w =
      afterConflicts env u len j (oneAttempt env u len w).2 := rfl

theorem afterConflicts_rngPos (env : Env) (u : String) (len : Nat) :
    ∀ (j : Nat) (w : World),
      (afterConflicts env u len j w).rngPos = w.rngPos + j * len := by
  intro j
  induction j with
  | zero => intro w; simp [afterConflicts]
  | succ j ih =>
    intro w
    rw [afterConflicts_succ, ih, oneAttempt_snd_rngPos]
    ring

theorem afterConflicts_insertPos (env : Env) (u : String) (len : Nat) :
    ∀ (j : Nat) (w : World),
      (afterConflicts env u len j w).insertPos = w.insertPos + j := by
  intro j
  induction j with
  | zero => intro w; simp [afterConflicts]
  | succ j ih =>
    intro w
    rw [afterConflicts_succ, ih, oneAttempt_snd_insertPos]
    omega

theorem registerAttempts_reach {env : Env} {u : String} {len : Nat} :
    ∀ (k : Nat) {n : Nat} (w : World), k < n →
      (∀ j, j < k → ∃ e wj,
        oneAttempt env u len (afterConflicts env u len j w) = (.error e, wj) ∧
        isUniqueViolation e = true) →
      registerAttempts env u len n w =
        registerAttempts env u len (n - k) (afterConflicts env u len k w) := by
  intro k
  induction k with
  | zero => intro n w _ _; rfl
  | succ k ih =>
    intro n w hk hconf
    obtain ⟨e0, w1, ha, huv⟩ := hconf 0 (by omega)
    have ha' : oneAttempt env u len w = (.error e0, w1) := ha
    have hw1 : (oneAttempt env u len w).2 = w1 := by rw [ha']
    cases n with
    | zero => omega
    | succ m =>
      rw [registerAttempts, ha']
      simp only
      rw [if_pos huv]
      rw [afterConflicts_succ, hw1]
      have hsub : m + 1 - (k + 1) = m - k := by omega
      rw [hsub]
      refine ih w1 (by omega) fun j hj => ?_
      have := hconf (j + 1) (by omega)
      rwa [afterConflicts_succ, hw1] at this

theorem register_ok {env : Env} {u : String} :
    ∀ {fuel : Nat} {w w' : World} {c : String},
      register env u fuel w = (some (.ok c), w') →
      w'.db.short_urls = w.db.short_urls ++ [(c, u)] ∧
      ∀ r ∈ w.db.short_urls, r.1 ≠ c := by
  intro fuel
  induction fuel with
  | zero => intro w w' c h; exact absurd h (by simp [register])
  | succ fuel ih =>
    intro w w' c h
    rw [register] at h
    cases hg : get_short_code_length env w with
    | mk gres w1 =>
      have hw1 : w1.db = w.db := by
        have h2 := get_short_code_length_snd env w
        rw [hg] at h2
        simpa using congrArg World.db h2
      rw [hg] at h
      cases gres with
      | error e => exact absurd h (by simp)
      | ok len =>
        simp only at h
        cases hr : registerAttempts env u len 3 w1 with
        | mk rres w2 =>
          rw [hr] at h
          cases rres with
          | some r =>
            simp only [Prod.mk.injEq, Option.some.injEq] at h
            obtain ⟨hres, hw⟩ := h
            subst hres
            subst hw
            obtain ⟨h1, h2, _⟩ := registerAttempts_ok hr
            rw [hw1] at h1 h2
            exact ⟨h1, h2⟩
          | none =>
            simp only at h
            cases hs : save_short_code_length env (len + 1) w2 with
            | mk sres w3 =>
              rw [hs] at h
              cases sres with
              | error e =>
                have := save_fst env (len + 1) w2
                rw [hs] at this
                exact absurd this (by simp)
              | ok _ =>
                obtain ⟨h1, h2⟩ := ih h
                have e3 : w3.db.short_urls = w2.db.short_urls := by
                  have := save_short_urls env (len + 1) w2
                  rwa [hs] at this
                have e2 : w2.db = w1.db := registerAttempts_none hr
                rw [e3, e2, hw1] at h1 h2
                exact ⟨h1, h2⟩

theorem find?_append_right {α : Type} (p : α → Bool) (l₁ l₂ : List α)
    (h : ∀ x ∈ l₁, p x = false) :
    List.find? p (l₁ ++ l₂) = List.find? p l₂ := by
  induction l₁ with
  | nil => rfl
  | cons a l ih =>
    simp only [List.cons_append, List.find?]
    rw [h a (by simp)]
    exact ih fun x hx => h x (by simp [hx])

theorem registerAttempts_three_ok {env : Env} {u : String} {len : Nat} {w w' : World}
    {c : String} (h : oneAttempt env u len w = (.ok c, w')) :
    registerAttempts env u len 3 w = (some (.ok c), w') := by
  have h3 : (3 : Nat) = 2 + 1 := rfl
  rw [h3, registerAttempts, h]

/-! The claims. -/

/-- C1: if `register` succeeds with short code `c`, a subsequent `lookup` of `c`
against the resulting registry state (with no store fault) returns the
registered URL. -/
theorem round_trip (env : Env) (u : String) (fuel : Nat) (w w' : World) (c : String)
    (h : register env u fuel w = (some (.ok c), w')) :
    lookup none w'.db c = .ok u := by
  obtain ⟨h1, h2⟩ := register_ok h
  unfold lookup
  rw [h1, find?_append_right _ _ _ fun r hr => by simpa using h2 r hr]
  simp [List.find?]

/-- C1 witness: registering `https://example.com` in an empty registry yields
`AAAA` under `envA`, and looking it up returns the URL. -/
theorem round_trip_witness :
    lookup none (⟨⟨[("AAAA", "https://example.com")], none⟩, 4, 1, 1, 0⟩ : World).db "AAAA" =
      .ok "https://example.com" :=
  round_trip envA "https://example.com" 1 wEmpty
    ⟨⟨[("AAAA", "https://example.com")], none⟩, 4, 1, 1, 0⟩ "AAAA" (by rfl)

/-- C2: two successful `register` calls in sequence return distinct codes; more
generally the second call never returns a code already bound in the registry
state it started from. -/
theorem register_unique (env1 env2 : Env) (u1 u2 : String) (f1 f2 : Nat)
    (w0 w1 w2 : World) (c1 c2 : String)
    (h1 : register env1 u1 f1 w0 = (some (.ok c1), w1))
    (h2 : register env2 u2 f2 w1 = (some (.ok c2), w2)) :
    c1 ≠ c2 ∧ ∀ r ∈ w1.db.short_urls, r.1 ≠ c2 := by
  obtain ⟨a1, _⟩ := register_ok h1
  obtain ⟨_, b2⟩ := register_ok h2
  refine ⟨?_, b2⟩
  have hmem : (c1, u1) ∈ w1.db.short_urls := by rw [a1]; simp
  exact b2 (c1, u1) hmem

/-- C2 witness: two registrations under `envA` (the second exhausting length 4
and growing to length 5) return the distinct codes `AAAA` and `AAAAA`. -/
theorem register_unique_witness :
    ("AAAA" : String) ≠ "AAAAA" ∧
    ∀ r ∈ (⟨⟨[("AAAA", "https://example.com")], none⟩, 4, 1, 1, 0⟩ : World).db.short_urls,
      r.1 ≠ "AAAAA" :=
  register_unique envA envA "https://example.com" "u2" 1 2 wEmpty
    ⟨⟨[("AAAA", "https://example.com")], none⟩, 4, 1, 1, 0⟩
    ⟨⟨[("AAAA", "https://example.com"), ("AAAAA", "u2")], some "5"⟩, 21, 5, 3, 1⟩
    "AAAA" "AAAAA" (by rfl) (by rfl)

/-- C3: when all 3 candidates of a round at length `L` hit uniqueness
conflicts, `register` persists `L + 1` as the length setting (the write not
faulting) and restarts; the next round re-reads `L + 1` (the read not faulting,
`L + 1` within `usize`) and generates candidates of length `L + 1`. -/
theorem length_growth (env : Env) (u : String) (fuel L : Nat) (w0 w1 w2 : World)
    (hget : get_short_code_length env w0 = (.ok L, w1))
    (hconf : registerAttempts env u L 3 w1 = (none, w2))
    (hwrite : env.writeErr w2.writePos = none)
    (hread : env.readErr w2.readPos = none)
    (hL : L + 1 < 2 ^ 64) :
    (save_short_code_length env (L + 1) w2).2.db.setting = some (toString (L + 1)) ∧
    register env u (fuel + 1) w0 =
      register env u fuel (save_short_code_length env (L + 1) w2).2 ∧
    (get_short_code_length env (save_short_code_length env (L + 1) w2).2).1 = .ok (L + 1) ∧
    ∀ pos, (generate_short_code env.rng pos (L + 1)).length = L + 1 := by
  have hsave : save_short_code_length env (L + 1) w2 =
      (.ok (), ⟨⟨w2.db.short_urls, some (toString (L + 1))⟩,
                w2.rngPos, w2.insertPos, w2.readPos, w2.writePos + 1⟩) := by
    simp only [save_short_code_length]
    rw [hwrite]
  refine ⟨by rw [hsave], ?_, ?_, ?_⟩
  · rw [register, hget]
    simp only
    rw [hconf]
    simp only
    rw [hsave]
  · rw [hsave]
    simp only [get_short_code_length]
    rw [hread]
    simp only
    rw [parseUsize_toString hL]
  · intro pos
    simp [generate_short_code, String.length]

/-- C3 witness: a registry saturated at `AAAA` under `envA` exhausts the round
at length 4, persists the setting `5`, and the next round reads 5 and would
generate 5-character candidates. -/
theorem length_growth_witness :
    (save_short_code_length envA 5 (⟨dbOne, 12, 3, 1, 0⟩ : World)).2.db.setting =
      some (toString 5) ∧
    register envA "y" 1 wOne =
      register envA "y" 0 (save_short_code_length envA 5 (⟨dbOne, 12, 3, 1, 0⟩ : World)).2 ∧
    (get_short_code_length envA
      (save_short_code_length envA 5 (⟨dbOne, 12, 3, 1, 0⟩ : World)).2).1 = .ok 5 ∧
    ∀ pos, (generate_short_code envA.rng pos 5).length = 5 :=
  length_growth envA "y" 0 4 wOne ⟨dbOne, 0, 0, 1, 0⟩ ⟨dbOne, 12, 3, 1, 0⟩
    rfl rfl rfl rfl (by decide)

/-- C4: within one round `register` attempts at most 3 candidates at the read
length (the round consumes at most `3 * L` random characters); if the first `k`
candidates (k < 3) hit uniqueness conflicts and the next INSERT succeeds,
`register` returns that accepted code — no error reaches the caller. -/
theorem collision_transparency (env : Env) (u : String) (fuel L k : Nat)
    (w0 w1 w' : World) (c : String)
    (hget : get_short_code_length env w0 = (.ok L, w1))
    (hk : k < 3)
    (hconf : ∀ j, j < k → ∃ e wj,
      oneAttempt env u L (afterConflicts env u L j w1) = (.error e, wj) ∧
      isUniqueViolation e = true)
    (hacc : oneAttempt env u L (afterConflicts env u L k w1) = (.ok c, w')) :
    register env u (fuel + 1) w0 = (some (.ok c), w') ∧
    w'.rngPos = w1.rngPos + (k + 1) * L ∧
    ∀ n wa, (registerAttempts env u L n wa).2.rngPos ≤ wa.rngPos + n * L := by
  have hreach := registerAttempts_reach k w1 hk hconf
  have h3k : (3 : Nat) - k = (2 - k) + 1 := by omega
  have hstep : registerAttempts env u L ((2 - k) + 1) (afterConflicts env u L k w1) =
      (some (.ok c), w') := by
    rw [registerAttempts, hacc]
  have hr : registerAttempts env u L 3 w1 = (some (.ok c), w') := by
    rw [hreach, h3k, hstep]
  refine ⟨?_, ?_, fun n wa => registerAttempts_rngPos_le n wa⟩
  · rw [register, hget]
    simp only
    rw [hr]
  · obtain ⟨_, _, _, _, hrng, _⟩ := oneAttempt_ok hacc
    rw [hrng, afterConflicts_rngPos]
    ring

/-- C4 witness: under `envB`, the first candidate `AAAA` conflicts and the
second candidate `BBBB` is accepted; `register` returns `BBBB`. -/
theorem collision_transparency_witness :
    register envB "y" 1 wOne =
      (some (.ok "BBBB"), ⟨⟨[("AAAA", "x"), ("BBBB", "y")], none⟩, 8, 2, 1, 0⟩) ∧
    (⟨⟨[("AAAA", "x"), ("BBBB", "y")], none⟩, 8, 2, 1, 0⟩ : World).rngPos =
      0 + (1 + 1) * 4 ∧
    ∀ n wa, (registerAttempts envB "y" 4 n wa).2.rngPos ≤ wa.rngPos + n * 4 :=
  collision_transparency envB "y" 0 4 1 wOne ⟨dbOne, 0, 0, 1, 0⟩
    ⟨⟨[("AAAA", "x"), ("BBBB", "y")], none⟩, 8, 2, 1, 0⟩ "BBBB" rfl (by omega)
    (fun j hj => by
      have hj0 : j = 0 := by omega
      subst hj0
      exact ⟨.database true, ⟨dbOne, 4, 1, 1, 0⟩, rfl, rfl⟩)
    rfl

/-- C5: an INSERT failure that is not a uniqueness violation aborts `register`
immediately with `Internal` wrapping that store fault; exactly the attempts so
far (and no more) were made. -/
theorem store_fault_aborts (env : Env) (u : String) (fuel L k : Nat)
    (w0 w1 w' : World) (e : SqlxError)
    (hget : get_short_code_length env w0 = (.ok L, w1))
    (hk : k < 3)
    (hconf : ∀ j, j < k → ∃ e0 wj,
      oneAttempt env u L (afterConflicts env u L j w1) = (.error e0, wj) ∧
      isUniqueViolation e0 = true)
    (herr : oneAttempt env u L (afterConflicts env u L k w1) = (.error e, w'))
    (huv : isUniqueViolation e = false) :
    register env u (fuel + 1) w0 = (some (.error (.Internal e)), w') ∧
    w'.insertPos = w1.insertPos + (k + 1) := by
  have hreach := registerAttempts_reach k w1 hk hconf
  have h3k : (3 : Nat) - k = (2 - k) + 1 := by omega
  have hstep : registerAttempts env u L ((2 - k) + 1) (afterConflicts env u L k w1) =
      (some (.error (.Internal e)), w') := by
    rw [registerAttempts, herr]
    simp only
    rw [if_neg (by simp [huv])]
  have hr : registerAttempts env u L 3 w1 = (some (.error (.Internal e)), w') := by
    rw [hreach, h3k, hstep]
  constructor
  · rw [register, hget]
    simp only
    rw [hr]
  · obtain ⟨_, _, hins, _⟩ := oneAttempt_error herr
    rw [hins, afterConflicts_insertPos]
    omega

/-- C5 witness: under `envC` the very first INSERT fails with a non-database
fault and `register` reports `Internal` after that single attempt. -/
theorem store_fault_aborts_witness :
    register envC "z" 1 wEmpty =
      (some (.error (.Internal .other)), ⟨⟨[], none⟩, 4, 1, 1, 0⟩) ∧
    (⟨⟨[], none⟩, 4, 1, 1, 0⟩ : World).insertPos = 0 + (0 + 1) :=
  store_fault_aborts envC "z" 0 4 0 wEmpty ⟨⟨[], none⟩, 0, 0, 1, 0⟩
    ⟨⟨[], none⟩, 4, 1, 1, 0⟩ .other rfl (by omega)
    (fun j hj => absurd hj (by omega)) rfl rfl

/-- C6: `save_short_code_length` swallows a failing settings write: it still
returns `Ok` (leaving the setting unchanged), and a `register` round whose
growth-write it serves continues into the next round instead of failing. -/
theorem write_fault_swallowed (env : Env) (len : Nat) (w : World) (e : SqlxError)
    (hfault : env.writeErr w.writePos = some e) :
    (save_short_code_length env len w).1 = .ok () ∧
    (save_short_code_length env len w).2.db = w.db ∧
    ∀ u fuel w0 L w1,
      get_short_code_length env w0 = (.ok L, w1) →
      registerAttempts env u L 3 w1 = (none, w) →
      register env u (fuel + 1) w0 =
        register env u fuel (save_short_code_length env (L + 1) w).2 := by
  have hs : ∀ m : Nat, save_short_code_length env m w =
      (.ok (), { w with writePos := w.writePos + 1 }) := by
    intro m
    simp only [save_short_code_length]
    rw [hfault]
  refine ⟨by rw [hs], by rw [hs], ?_⟩
  intro u fuel w0 L w1 hget hconf
  rw [register, hget]
  simp only
  rw [hconf]
  simp only
  rw [hs]

/-- C6 witness: under `envD` (every settings write faults), saving the length
still returns `Ok` and leaves the database untouched. -/
theorem write_fault_swallowed_witness :
    (save_short_code_length envD 5 wEmpty).1 = .ok () ∧
    (save_short_code_length envD 5 wEmpty).2.db = wEmpty.db :=
  ⟨(write_fault_swallowed envD 5 wEmpty .other rfl).1,
   (write_fault_swallowed envD 5 wEmpty .other rfl).2.1⟩

/-- C7: the outer restart loop of `register` has no attempt ceiling: with the
code `AAAA` already reserved, the RNG forever resampling it, and every
settings write failing, `register` exhausts any amount of fuel (3 INSERT
attempts per round) and never returns. -/
theorem register_unbounded : ∀ (fuel a b c d : Nat),
    (register envD "https://example.com" fuel ⟨dbOne, a, b, c, d⟩).1 = none ∧
    (register envD "https://example.com" fuel ⟨dbOne, a, b, c, d⟩).2.insertPos =
      b + 3 * fuel := by
  intro fuel
  induction fuel with
  | zero => intro a b c d; exact ⟨rfl, by simp [register]⟩
  | succ n ih =>
    intro a b c d
    have hstep : register envD "https://example.com" (n + 1) ⟨dbOne, a, b, c, d⟩ =
        register envD "https://example.com" n ⟨dbOne, a + 12, b + 3, c + 1, d + 1⟩ := by
      rfl
    rw [hstep]
    obtain ⟨h1, h2⟩ := ih (a + 12) (b + 3) (c + 1) (d + 1)
    exact ⟨h1, by rw [h2]; ring⟩

/-- C8: `lookup` maps a store fault to `Internal`, a code with no record to
`NotFound`, and a present code to its stored URL. -/
theorem lookup_spec (db : DbState) (c : String) :
    (∀ e, lookup (some e) db c = .error (.Internal e)) ∧
    ((∀ r ∈ db.short_urls, r.1 ≠ c) → lookup none db c = .error .NotFound) ∧
    ∀ p, db.short_urls.find? (fun r => r.1 = c) = some p → lookup none db c = .ok p.2 := by
  refine ⟨fun e => rfl, ?_, ?_⟩
  · intro habs
    unfold lookup
    have hn : db.short_urls.find? (fun r => r.1 = c) = none := by
      rw [List.find?_eq_none]
      intro x hx
      simpa using habs x hx
    rw [hn]
  · intro p hp
    unfold lookup
    rw [hp]

/-- C8 witness: on a registry holding only `AAAA`, a faulting read yields
`Internal`, the never-issued `zzzz` yields `NotFound`, and `AAAA` resolves. -/
theorem lookup_spec_witness :
    lookup (some .other) ⟨[("AAAA", "u")], none⟩ "zzzz" = .error (.Internal .other) ∧
    lookup none ⟨[("AAAA", "u")], none⟩ "zzzz" = .error .NotFound ∧
    lookup none ⟨[("AAAA", "u")], none⟩ "AAAA" = .ok "u" :=
  ⟨(lookup_spec ⟨[("AAAA", "u")], none⟩ "zzzz").1 .other,
   (lookup_spec ⟨[("AAAA", "u")], none⟩ "zzzz").2.1 (by decide),
   (lookup_spec ⟨[("AAAA", "u")], none⟩ "AAAA").2.2 ("AAAA", "u") (by rfl)⟩

/-- C9: with no stored setting `get_short_code_length` returns the default (4),
and from an empty registry a fault-free first round reserves a code of exactly
4 characters drawn from the 62-symbol alphanumeric alphabet. -/
theorem default_length_first_code (env : Env) (u : String) (w0 : World)
    (hempty : w0.db.short_urls = [])
    (hset : w0.db.setting = none)
    (hread : env.readErr w0.readPos = none)
    (hins : env.insertErr w0.insertPos = none) :
    (get_short_code_length env w0).1 = .ok DEFAULT_SHORT_CODE_LENGTH ∧
    DEFAULT_SHORT_CODE_LENGTH = 4 ∧
    (∀ fuel, (register env u (fuel + 1) w0).1 =
      some (.ok (generate_short_code env.rng w0.rngPos 4))) ∧
    (generate_short_code env.rng w0.rngPos 4).length = 4 ∧
    ∀ ch ∈ (generate_short_code env.rng w0.rngPos 4).data, ch ∈ ALPHANUMERIC := by
  have hget : get_short_code_length env w0 =
      (.ok 4, { w0 with readPos := w0.readPos + 1 }) := by
    simp only [get_short_code_length]
    rw [hread, hset]
    rfl
  have hone : oneAttempt env u 4 { w0 with readPos := w0.readPos + 1 } =
      (.ok (generate_short_code env.rng w0.rngPos 4),
       ⟨⟨[(generate_short_code env.rng w0.rngPos 4, u)], w0.db.setting⟩,
        w0.rngPos + 4, w0.insertPos + 1, w0.readPos + 1, w0.writePos⟩) := by
    simp only [oneAttempt]
    rw [hins]
    simp [hempty]
  refine ⟨by rw [hget]; rfl, rfl, ?_, ?_, ?_⟩
  · intro fuel
    rw [register, hget]
    simp only
    rw [registerAttempts_three_ok hone]
  · simp [generate_short_code, String.length]
  · intro ch hch
    simp only [generate_short_code] at hch
    obtain ⟨i, _, hmap⟩ := List.mem_map.mp hch
    rw [← hmap]
    exact List.get_mem _ _ _

/-- C9 witness: under `envA` the empty registry reads length 4 and the first
registration returns the 4-character alphanumeric code `AAAA`. -/
theorem default_length_first_code_witness :
    (get_short_code_length envA wEmpty).1 = .ok DEFAULT_SHORT_CODE_LENGTH ∧
    DEFAULT_SHORT_CODE_LENGTH = 4 ∧
    (∀ fuel, (register envA "https://example.com" (fuel + 1) wEmpty).1 =
      some (.ok (generate_short_code envA.rng wEmpty.rngPos 4))) ∧
    (generate_short_code envA.rng wEmpty.rngPos 4).length = 4 ∧
    ∀ ch ∈ (generate_short_code envA.rng wEmpty.rngPos 4).data, ch ∈ ALPHANUMERIC :=
  default_length_first_code envA "https://example.com" wEmpty rfl rfl rfl rfl

/-- C10: `register` only ever produces a short code or `Internal` (or runs out
of fuel); the `NotFound` variant of the shared error enum is never returned by
registration. -/
theorem register_never_notFound :
    ∀ (fuel : Nat) (env : Env) (u : String) (w : World),
      (register env u fuel w).1 = none ∨
      (∃ c, (register env u fuel w).1 = some (.ok c)) ∨
      ∃ e, (register env u fuel w).1 = some (.error (.Internal e)) := by
  intro fuel
  induction fuel with
  | zero => intro env u w; exact Or.inl rfl
  | succ fuel ih =>
    intro env u w
    rw [register]
    cases hg : get_short_code_length env w with
    | mk gres w1 =>
      cases gres with
      | error err =>
        obtain ⟨e, he⟩ := get_short_code_length_internal (by rw [hg])
        subst he
        exact Or.inr (Or.inr ⟨e, by simp⟩)
      | ok len =>
        simp only
        cases hr : registerAttempts env u len 3 w1 with
        | mk rres w2 =>
          cases rres with
          | some r =>
            cases r with
            | ok c => exact Or.inr (Or.inl ⟨c, by simp⟩)
            | error err =>
              obtain ⟨e, he, _⟩ := registerAttempts_internal hr
              subst he
              exact Or.inr (Or.inr ⟨e, by simp⟩)
          | none =>
            simp only
            cases hs : save_short_code_length env (len + 1) w2 with
            | mk sres w3 =>
              cases sres with
              | error e2 =>
                have := save_fst env (len + 1) w2
                rw [hs] at this
                exact absurd this (by simp)
              | ok v =>
                simp only
                exact ih env u w3

end UrlShort
